import Mathlib

set_option linter.unusedVariables false

/-! Verification of the background task engine: the task processor's record
    lifecycle (src/app/services/core/background_task_processor.py), the
    circuit-breaking connection manager
    (src/app/utils/async_redis_utils/connection.py), and the Redis-backed LRU
    cache (src/app/utils/async_redis_utils/lrucache.py).

    Modelling conventions:
    - ISO-8601 UTC timestamp strings are modelled as naturals; for records
      produced by datetime.now(UTC).isoformat() the lexicographic string order
      used by the Lua cleanup script agrees with chronological order.
    - The serialized result payload is modelled as an opaque natural.
    - Redis keys carry the expiry (SET ... EX result_ttl) as an absolute
      expiration instant; GET at a time at or past that instant returns nil.
    - Pub/sub publication has no effect on the persisted record and is omitted.
-/

namespace TaskEngine

/-- Status strings of class TaskStatus in background_task_processor.py. -/
inductive TaskStatus
  | pending
  | running
  | completed
  | failed
  | cancelled
  deriving DecidableEq, Repr

/-- The terminal-state test used by the update routine:
    status in [COMPLETED, FAILED, CANCELLED]. -/
def TaskStatus.isTerminal : TaskStatus → Bool
  | .completed => true
  | .failed => true
  | .cancelled => true
  | _ => false

/-- The TaskData TypedDict persisted under background_task_results:{task_id}. -/
structure TaskData where
  status : TaskStatus
  created_at : Nat
  updated_at : Nat
  completed_at : Option Nat
  result : Option Nat
  error : Option String
  deriving DecidableEq, Repr

/-- One Redis string entry: the JSON-encoded TaskData plus the absolute
    expiration instant installed by SET ... EX result_ttl. -/
structure Entry where
  data : TaskData
  expiresAt : Nat
  deriving DecidableEq, Repr

/-- The key space background_task_results:* of the shared store. -/
abbrev Store : Type := List (String × Entry)

def storeLookup : Store → String → Option Entry
  | [], _ => none
  | (k, e) :: t, id => if k = id then some e else storeLookup t id

def storeRemove : Store → String → Store
  | [], _ => []
  | (k, e) :: t, id => if k = id then storeRemove t id else (k, e) :: storeRemove t id

/-- GET at time now: nil once the expiry installed by SET ... EX has passed. -/
def redisGet (now : Nat) (s : Store) (id : String) : Option TaskData :=
  match storeLookup s id with
  | some e => if now < e.expiresAt then some e.data else none
  | none => none

/-- SET key value EX ttl: overwrite the entry and restart its ttl. -/
def redisSet (ttl now : Nat) (s : Store) (id : String) (d : TaskData) : Store :=
  (id, ⟨d, now + ttl⟩) :: storeRemove s id

/-- The optional additional_data dictionary passed to _update_task_data:
    the two callers pass either a result field or an error field. -/
inductive Additional
  | nothing
  | resultField (r : Nat)
  | errorField (e : String)
  deriving DecidableEq, Repr

/-- The update_data dictionary merge of _update_task_data: set status and
    updated_at, add completed_at when the new status is terminal, then merge
    additional_data over the previously stored fields. -/
def applyUpdate (now : Nat) (status : TaskStatus) (add : Additional) (d : TaskData) : TaskData :=
  let base := { d with status := status, updated_at := now }
  let base := if status.isTerminal then { base with completed_at := some now } else base
  match add with
  | .nothing => base
  | .resultField r => { base with result := some r }
  | .errorField e => { base with error := some e }

/-- _update_task_data: GET the record; if present, merge the update and SET it
    back with EX result_ttl (then publish, which the record model omits);
    if the key is absent or expired, do nothing. -/
def updateTaskData (ttl now : Nat) (s : Store) (id : String) (status : TaskStatus)
    (add : Additional) : Store :=
  match redisGet now s id with
  | some d => redisSet ttl now s id (applyUpdate now status add d)
  | none => s

/-- _update_task_status. -/
def updateTaskStatus (ttl now : Nat) (s : Store) (id : String) (status : TaskStatus) : Store :=
  updateTaskData ttl now s id status .nothing

/-- _store_task_result: status COMPLETED with the serialized result merged in. -/
def storeTaskResult (ttl now : Nat) (s : Store) (id : String) (r : Nat) : Store :=
  updateTaskData ttl now s id .completed (.resultField r)

/-- _store_task_error: status FAILED with the stringified error merged in. -/
def storeTaskError (ttl now : Nat) (s : Store) (id : String) (e : String) : Store :=
  updateTaskData ttl now s id .failed (.errorField e)

/-- The initial metadata written by add_task: RUNNING immediately, timestamps
    now, and null completed_at / result / error. -/
def initialTaskData (now : Nat) : TaskData :=
  { status := .running
    created_at := now
    updated_at := now
    completed_at := none
    result := none
    error := none }

/-- The initial SET of add_task: SET key json(task_data) EX result_ttl. -/
def addTaskWrite (ttl now : Nat) (s : Store) (id : String) : Store :=
  redisSet ttl now s id (initialTaskData now)

/-- get_task_result: a point-in-time GET of the persisted record. -/
def getTaskResult (now : Nat) (s : Store) (id : String) : Option TaskData :=
  redisGet now s id

/-- Processor state: the persisted records plus the ids in the _tasks mapping
    whose SerializableTask.get_task() yields a live asyncio handle. -/
structure ProcState where
  store : Store
  handles : List String

/-- cancel_task: GET the record; refuse unless status is pending or running;
    refuse when no live handle is found; otherwise cancel the handle, await its
    termination (modelled only through its net record effect), write CANCELLED
    and return True. The handle map is pruned by a separate done-callback, not
    by cancel_task itself. -/
def cancelTask (ttl now : Nat) (ps : ProcState) (id : String) : Bool × ProcState :=
  match redisGet now ps.store id with
  | some d =>
    if d.status = .pending ∨ d.status = .running then
      if id ∈ ps.handles then
        (true, ⟨updateTaskStatus ttl now ps.store id .cancelled, ps.handles⟩)
      else (false, ps)
    else (false, ps)
  | none => (false, ps)

/-- Contiguous-sublist test over characters, modelling the Python substring
    operator used in the guard "Event loop is closed" in error_msg. -/
def containsSubList (pat : List Char) : List Char → Bool
  | [] => pat.isEmpty
  | c :: t => pat.isPrefixOf (c :: t) || containsSubList pat t

def containsSub (s pat : String) : Bool :=
  containsSubList pat.data s.data

/-- _execute_async_task when the callable raises an exception with message msg:
    mark RUNNING, then either return early (message mentions a closed event
    loop) or store the error and mark FAILED. The exception itself is consumed
    by the except-branch and never re-raised. -/
def executeAsyncRaises (ttl t1 t2 t3 : Nat) (s : Store) (id msg : String) : Store :=
  let s1 := updateTaskStatus ttl t1 s id .running
  if containsSub msg "Event loop is closed" then s1
  else updateTaskStatus ttl t3 (storeTaskError ttl t2 s1 id msg) id .failed

/-- _execute_async_task when the callable returns r: mark RUNNING, store the
    result, mark COMPLETED. -/
def executeAsyncSucceeds (ttl t1 t2 t3 : Nat) (s : Store) (id : String) (r : Nat) : Store :=
  updateTaskStatus ttl t3 (storeTaskResult ttl t2 (updateTaskStatus ttl t1 s id .running) id r)
    id .completed

/-- _execute_async_task when the awaited callable is cancelled: mark RUNNING,
    then the CancelledError branch marks CANCELLED. -/
def executeAsyncCancelledIn (ttl t1 t2 : Nat) (s : Store) (id : String) : Store :=
  updateTaskStatus ttl t2 (updateTaskStatus ttl t1 s id .running) id .cancelled

/-- One execution of a submitted task, from the initial add_task write through
    the execution routine's record writes. -/
inductive Outcome
  | succeeded (r : Nat)
  | raised (e : String)
  | wasCancelled

def lifecycleRun (ttl t0 t1 t2 t3 : Nat) (s0 : Store) (id : String) : Outcome → Store
  | .succeeded r => executeAsyncSucceeds ttl t1 t2 t3 (addTaskWrite ttl t0 s0 id) id r
  | .raised e => executeAsyncRaises ttl t1 t2 t3 (addTaskWrite ttl t0 s0 id) id e
  | .wasCancelled => executeAsyncCancelledIn ttl t1 t2 (addTaskWrite ttl t0 s0 id) id

/-- The record invariant claimed for TaskRecord: completed_at is set exactly on
    terminal statuses, result only on completed, error only on failed, and
    result and error are never both set. -/
def TaskData.invariantOk (d : TaskData) : Prop :=
  d.completed_at.isSome = d.status.isTerminal
    ∧ (d.result.isSome = true → d.status = .completed)
    ∧ (d.error.isSome = true → d.status = .failed)
    ∧ ¬(d.result.isSome = true ∧ d.error.isSome = true)

instance (d : TaskData) : Decidable d.invariantOk := by
  unfold TaskData.invariantOk
  infer_instance

/-- Record shapes occurring along a single run of the execution routine. -/
def TaskData.stageRunning (d : TaskData) : Prop :=
  d.status = .running ∧ d.completed_at = none ∧ d.result = none ∧ d.error = none

def TaskData.stageCompleted (d : TaskData) : Prop :=
  d.status = .completed ∧ d.completed_at.isSome = true ∧ d.error = none

def TaskData.stageFailed (d : TaskData) : Prop :=
  d.status = .failed ∧ d.completed_at.isSome = true ∧ d.result = none

def TaskData.stageCancelled (d : TaskData) : Prop :=
  d.status = .cancelled ∧ d.completed_at.isSome = true ∧ d.result = none ∧ d.error = none

/-- The per-record test of the CLEANUP_SCRIPT:
    terminal_states[task.status] and task.completed_at and
    task.completed_at < cutoff_ts.
    A terminal record whose completed_at is JSON null makes the script compare
    the truthy cjson.null sentinel against a string, a Lua error that aborts
    the whole script; that case is the none result. -/
def luaCheck (cutoff : Nat) (d : TaskData) : Option Bool :=
  if d.status.isTerminal then
    match d.completed_at with
    | some t => some (decide (t < cutoff))
    | none => none
  else some false

/-- The script's view of one scanned key at time now: an expired key answers
    nil to GET and is skipped. -/
def scriptCheck (now cutoff : Nat) (e : String × Entry) : Option Bool :=
  if now < e.2.expiresAt then luaCheck cutoff e.2.data else some false

/-- cleanup_old_tasks: cutoff is now - max_age; the Lua script scans every
    background_task_results:* key, collects the ones passing the check, then
    deletes them in one DEL and returns how many. If the script raises, the
    Python wrapper catches the exception and returns 0 with nothing deleted. -/
def cleanupOldTasks (now maxAge : Nat) (s : Store) : Nat × Store :=
  let cutoff := now - maxAge
  if s.all (fun e => (scriptCheck now cutoff e).isSome) then
    ((s.filter (fun e => scriptCheck now cutoff e == some true)).length,
      s.filter (fun e => scriptCheck now cutoff e != some true))
  else (0, s)

/-- The deletion criterion as the spec words it: status in the terminal set
    and completed_at older than the cutoff. Stated separately from the
    embedded script so the two can be compared. -/
def specDeletes (cutoff : Nat) (d : TaskData) : Bool :=
  d.status.isTerminal
    && (match d.completed_at with
        | some t => decide (t < cutoff)
        | none => false)

end TaskEngine

namespace ConnMgr

/-- Circuit-breaker state of AsyncConnectionManager. Only _failure_count is
    consulted by execute; __init__ also stores _circuit_breaker_timeout and
    _retry_max_attempts but execute never reads either. -/
structure ConnState where
  failure_count : Nat
  deriving DecidableEq, Repr

inductive ExecResult
  | success
  | circuitOpenErr   -- RedisError raised before contacting the store
  | commandErr       -- AsyncCircuitBreakerError raised after a failed command
  deriving DecidableEq, Repr

/-- One attempt of the body of execute: fail fast when failure_count has
    reached the threshold; otherwise run the command, resetting the count to
    zero on success and incrementing it by one when the command raises a
    RedisError / ConnectionError / AsyncCircuitBreakerError. -/
def executeAttempt (threshold : Nat) (st : ConnState) (ok : Bool) : ConnState × ExecResult :=
  if threshold ≤ st.failure_count then (st, .circuitOpenErr)
  else if ok then (⟨0⟩, .success)
  else (⟨st.failure_count + 1⟩, .commandErr)

/-- The backoff.on_exception wrapper around execute: max_tries is the literal 3
    of the decorator (the configured retry_max_attempts is not consulted), and
    both raised error types are in the retried exception tuple, so failed and
    circuit-open attempts alike are retried until the tries run out. ok i says
    whether the i-th attempt of this call would succeed against the store. -/
def executeRetries (threshold : Nat) (ok : Nat → Bool) :
    Nat → Nat → ConnState → ConnState × ExecResult
  | 0, _, st => (st, .commandErr)
  | 1, i, st => executeAttempt threshold st (ok i)
  | n + 2, i, st =>
    match executeAttempt threshold st (ok i) with
    | (st', .success) => (st', .success)
    | (st', _) => executeRetries threshold ok (n + 1) (i + 1) st'

/-- One call of AsyncConnectionManager.execute, decorator included. -/
def execute (threshold : Nat) (st : ConnState) (ok : Nat → Bool) : ConnState × ExecResult :=
  executeRetries threshold ok 3 0 st

end ConnMgr

namespace LRUCache

/-- State of AsyncLRUCache: the Redis hash cache_key (field to serialized
    value) and the list cache_key:order whose head is the most recently used
    field (LPUSH pushes to the head, RPOP evicts from the tail). -/
structure CacheState where
  entries : List (String × Nat)
  order : List String
  deriving DecidableEq, Repr

/-- HSET: replace the field in place or append a new one. -/
def hset : List (String × Nat) → String → Nat → List (String × Nat)
  | [], k, v => [(k, v)]
  | (k', v') :: t, k, v => if k' = k then (k, v) :: t else (k', v') :: hset t k v

/-- HGET. -/
def hget : List (String × Nat) → String → Option Nat
  | [], _ => none
  | (k', v') :: t, k => if k' = k then some v' else hget t k

/-- HDEL of a single field. -/
def hdel (l : List (String × Nat)) (k : String) : List (String × Nat) :=
  l.filter (fun p => decide (p.1 ≠ k))

/-- LREM key 0 field: remove every occurrence of the field. -/
def lrem (l : List String) (k : String) : List String :=
  l.filter (fun a => decide (a ≠ k))

/-- put: LREM + LPUSH + HSET + LLEN in one pipeline; then, when the order list
    has grown past capacity, RPOP the least-recently-used field and HDEL it. -/
def put (capacity : Nat) (st : CacheState) (k : String) (v : Nat) : CacheState :=
  let order2 := k :: lrem st.order k
  let entries2 := hset st.entries k v
  if capacity < order2.length then
    match order2.getLast? with
    | some lru => ⟨hdel entries2 lru, order2.dropLast⟩
    | none => ⟨entries2, order2⟩
  else ⟨entries2, order2⟩

/-- get: HGET; on a miss return None; on a hit LREM + LPUSH promote the field
    to most recently used. -/
def get (st : CacheState) (k : String) : Option Nat × CacheState :=
  match hget st.entries k with
  | none => (none, st)
  | some v => (some v, ⟨st.entries, k :: lrem st.order k⟩)

/-- size: HLEN of the hash. -/
def size (st : CacheState) : Nat := st.entries.length

def emptyCache : CacheState := ⟨[], []⟩

inductive Op
  | putOp (k : String) (v : Nat)
  | getOp (k : String)

def applyOp (capacity : Nat) (st : CacheState) : Op → CacheState
  | .putOp k v => put capacity st k v
  | .getOp k => (get st k).2

def applyOps (capacity : Nat) (st : CacheState) (ops : List Op) : CacheState :=
  ops.foldl (applyOp capacity) st

/-- Put each key of ks in order (values immaterial for the eviction claims). -/
def putKeys (capacity : Nat) (st : CacheState) (ks : List String) : CacheState :=
  ks.foldl (fun s k => put capacity s k 0) st

/-- Well-formedness the pipeline maintains: no duplicate hash fields, no
    duplicate order entries, the hash fields and the order list hold the same
    keys, and hence the same number of them. -/
def WF (st : CacheState) : Prop :=
  (st.entries.map Prod.fst).Nodup
    ∧ st.order.Nodup
    ∧ (∀ k, k ∈ st.entries.map Prod.fst ↔ k ∈ st.order)
    ∧ st.entries.length = st.order.length

end LRUCache

namespace Sched

/-- Where one scheduled execution unit stands: created by asyncio.create_task
    but still waiting on the semaphore, inside async with self._semaphore, or
    done. -/
inductive Phase
  | queued
  | executing
  | finished
  deriving DecidableEq, Repr

/-- One submitted task: its persisted record status and its body's phase. -/
structure TaskCell where
  id : String
  status : TaskEngine.TaskStatus
  phase : Phase
  deriving DecidableEq, Repr

abbrev SchedState : Type := List TaskCell

/-- How many task bodies hold a semaphore slot. -/
def numExecuting (s : SchedState) : Nat :=
  (s.filter (fun t => decide (t.phase = Phase.executing))).length

/-- How many persisted records currently read status running. -/
def numRunningStatus (s : SchedState) : Nat :=
  (s.filter (fun t => decide (t.status = TaskEngine.TaskStatus.running))).length

/-- Interleaved scheduler steps. submit is add_task: it writes a RUNNING record
    and creates the execution unit without waiting for a semaphore slot.
    acquire is the body entering async with self._semaphore, allowed only while
    fewer than max_workers bodies hold a slot; it rewrites RUNNING. finish is
    the body completing with some terminal status and releasing its slot. -/
inductive Step (maxW : Nat) : SchedState → SchedState → Prop
  | submit (s : SchedState) (id : String) (hfresh : ∀ t ∈ s, t.id ≠ id) :
      Step maxW s (⟨id, .running, .queued⟩ :: s)
  | acquire (pre post : SchedState) (t : TaskCell) (hq : t.phase = .queued)
      (hcap : numExecuting (pre ++ t :: post) < maxW) :
      Step maxW (pre ++ t :: post)
        (pre ++ { t with phase := .executing, status := .running } :: post)
  | finish (pre post : SchedState) (t : TaskCell) (final : TaskEngine.TaskStatus)
      (he : t.phase = .executing) (hterm : final.isTerminal = true) :
      Step maxW (pre ++ t :: post)
        (pre ++ { t with phase := .finished, status := final } :: post)

/-- States reachable from an idle processor. -/
inductive Reachable (maxW : Nat) : SchedState → Prop
  | init : Reachable maxW []
  | step {s s' : SchedState} : Reachable maxW s → Step maxW s s' → Reachable maxW s'

end Sched

namespace TaskEngine

theorem storeLookup_remove_self (s : Store) (id : String) :
    storeLookup (storeRemove s id) id = none := by
  induction s with
  | nil => rfl
  | cons p t ih =>
    obtain ⟨k, e⟩ := p
    by_cases h : k = id
    · simpa [storeRemove, h] using ih
    · simpa [storeRemove, storeLookup, h] using ih

theorem storeLookup_remove_other (s : Store) (id id' : String) (h : id' ≠ id) :
    storeLookup (storeRemove s id) id' = storeLookup s id' := by
  induction s with
  | nil => rfl
  | cons p t ih =>
    obtain ⟨k, e⟩ := p
    by_cases hk : k = id
    · subst hk
      simp [storeRemove, storeLookup, Ne.symm h, ih]
    · by_cases hk' : k = id'
      · subst hk'
        simp [storeRemove, storeLookup, h]
      · simp [storeRemove, storeLookup, hk, hk', ih]

theorem storeLookup_set_self (ttl now : Nat) (s : Store) (id : String) (d : TaskData) :
    storeLookup (redisSet ttl now s id d) id = some ⟨d, now + ttl⟩ := by
  simp [redisSet, storeLookup]

theorem redisGet_set_self (ttl now t : Nat) (s : Store) (id : String) (d : TaskData) :
    redisGet t (redisSet ttl now s id d) id = if t < now + ttl then some d else none := by
  simp [redisGet, storeLookup_set_self]

/-- C1: the claim states that no processor operation (status update, result
    store, error store, cancel_task) ever changes the status of a record that
    is already terminal. Counterexample: _update_task_data performs no
    terminal-status check, so a RUNNING status update applied to a COMPLETED
    record rewrites its status to RUNNING. -/
theorem c1_counterexample :
    (redisGet 10 [("t", ⟨⟨.completed, 0, 5, some 5, some 1, none⟩, 100⟩)] "t").map
        TaskData.status = some .completed
      ∧ (redisGet 10
          (updateTaskStatus 50 10 [("t", ⟨⟨.completed, 0, 5, some 5, some 1, none⟩, 100⟩)]
            "t" .running) "t").map TaskData.status = some .running := by
  decide

/-- C1 (amended): only cancel_task guards against terminal records: applied to
    a record whose status is terminal it returns false and changes nothing.
    The _update_task_data writers apply any status unconditionally, so a late
    status write can still overwrite a terminal status (see the
    counterexample). -/
theorem c1_cancel_preserves_terminal (ttl now : Nat) (ps : ProcState) (id : String)
    (d : TaskData) (hget : redisGet now ps.store id = some d)
    (hterm : d.status.isTerminal = true) :
    cancelTask ttl now ps id = (false, ps) := by
  unfold cancelTask
  rw [hget]
  have hns : ¬(d.status = .pending ∨ d.status = .running) := by
    cases h : d.status <;> simp_all [TaskStatus.isTerminal]
  simp [hns]

theorem c1_witness :
    cancelTask 5 0 ⟨[("t", ⟨⟨.completed, 0, 0, some 0, none, none⟩, 9⟩)], ["t"]⟩ "t"
      = (false, ⟨[("t", ⟨⟨.completed, 0, 0, some 0, none, none⟩, 9⟩)], ["t"]⟩) :=
  c1_cancel_preserves_terminal 5 0 _ "t" ⟨.completed, 0, 0, some 0, none, none⟩
    (by decide) (by decide)

theorem getTaskResult_update (ttl now tr : Nat) (s : Store) (id : String) (st : TaskStatus)
    (add : Additional) (d : TaskData)
    (h : getTaskResult tr (updateTaskData ttl now s id st add) id = some d) :
    (∃ d0, redisGet now s id = some d0 ∧ d = applyUpdate now st add d0)
      ∨ getTaskResult tr s id = some d := by
  unfold updateTaskData at h
  cases hg : redisGet now s id with
  | none => rw [hg] at h; exact Or.inr h
  | some d0 =>
    rw [hg] at h
    refine Or.inl ⟨d0, rfl, ?_⟩
    simp only [getTaskResult] at h
    rw [redisGet_set_self] at h
    by_cases htr : tr < now + ttl
    · simp [htr] at h; exact h.symm
    · simp [htr] at h

theorem getTaskResult_addTaskWrite (ttl t0 tr : Nat) (s : Store) (id : String) (d : TaskData)
    (h : getTaskResult tr (addTaskWrite ttl t0 s id) id = some d) :
    d = initialTaskData t0 := by
  simp only [getTaskResult, addTaskWrite] at h
  rw [redisGet_set_self] at h
  by_cases htr : tr < t0 + ttl
  · simp [htr] at h; exact h.symm
  · simp [htr] at h

/-- Whatever a GET of the record can return after one more update, given what a
    GET could return before it. -/
theorem readable_step {P Q : TaskData → Prop} (ttl now : Nat) (s : Store) (id : String)
    (st : TaskStatus) (add : Additional)
    (hs : ∀ tr d, getTaskResult tr s id = some d → P d)
    (hP : ∀ d, P d → Q d)
    (hu : ∀ t d, P d → Q (applyUpdate t st add d)) :
    ∀ tr d, getTaskResult tr (updateTaskData ttl now s id st add) id = some d → Q d := by
  intro tr d h
  rcases getTaskResult_update ttl now tr s id st add d h with ⟨d0, hg, hd⟩ | hsame
  · exact hd ▸ hu now d0 (hs now d0 hg)
  · exact hP d (hs tr d hsame)

theorem applyUpdate_running (t : Nat) (d : TaskData) :
    applyUpdate t .running .nothing d = { d with status := .running, updated_at := t } := rfl

theorem applyUpdate_completed_nothing (t : Nat) (d : TaskData) :
    applyUpdate t .completed .nothing d
      = { d with status := .completed, updated_at := t, completed_at := some t } := rfl

theorem applyUpdate_failed_nothing (t : Nat) (d : TaskData) :
    applyUpdate t .failed .nothing d
      = { d with status := .failed, updated_at := t, completed_at := some t } := rfl

theorem applyUpdate_cancelled_nothing (t : Nat) (d : TaskData) :
    applyUpdate t .cancelled .nothing d
      = { d with status := .cancelled, updated_at := t, completed_at := some t } := rfl

theorem applyUpdate_result (t r : Nat) (d : TaskData) :
    applyUpdate t .completed (.resultField r) d
      = { d with status := .completed, updated_at := t, completed_at := some t, result := some r } := rfl

theorem applyUpdate_error (t : Nat) (e : String) (d : TaskData) :
    applyUpdate t .failed (.errorField e) d
      = { d with status := .failed, updated_at := t, completed_at := some t, error := some e } := rfl

theorem invariantOk_of_stages (d : TaskData)
    (h : d.stageRunning ∨ d.stageCompleted ∨ d.stageFailed ∨ d.stageCancelled) :
    d.invariantOk := by
  rcases h with ⟨h1, h2, h3, h4⟩ | ⟨h1, h2, h3⟩ | ⟨h1, h2, h3⟩ | ⟨h1, h2, h3, h4⟩ <;>
    simp_all [TaskData.invariantOk, TaskStatus.isTerminal]

/-- C2: the claim quantifies over every sequence of processor operations.
    Counterexample: storing a result and then storing an error (the reachable
    order when the final COMPLETED publish raises and the except-branch stores
    the error) leaves a FAILED record whose result is still set: result and
    error never get cleared by _update_task_data. -/
theorem c2_counterexample :
    getTaskResult 0
        (storeTaskError 9 0 (storeTaskResult 9 0 (addTaskWrite 9 0 [] "t") "t" 7) "t" "x") "t"
      = some ⟨.failed, 0, 0, some 0, some 7, some "x"⟩
      ∧ ¬ TaskData.invariantOk ⟨.failed, 0, 0, some 0, some 7, some "x"⟩ := by
  decide

/-- C2 (amended): along every single run of the execution routine over the
    record it owns (success, failure, cancellation, including the
    closed-event-loop early return, and regardless of which writes hit an
    already-expired key), every record a GET can return satisfies the
    invariant: completed_at set iff terminal, result only on completed, error
    only on failed, never both. Arbitrary interleavings of the update
    operations are not covered: they can violate it (see the
    counterexample). -/
theorem c2_lifecycle_invariant (ttl t0 t1 t2 t3 : Nat) (s0 : Store) (id : String)
    (o : Outcome) (tr : Nat) (d : TaskData)
    (h : getTaskResult tr (lifecycleRun ttl t0 t1 t2 t3 s0 id o) id = some d) :
    d.invariantOk := by
  have hbase : ∀ tr' d', getTaskResult tr' (addTaskWrite ttl t0 s0 id) id = some d' →
      d'.stageRunning := by
    intro tr' d' h'
    have he := getTaskResult_addTaskWrite ttl t0 tr' s0 id d' h'
    subst he
    exact ⟨rfl, rfl, rfl, rfl⟩
  have hrun : ∀ tr' d',
      getTaskResult tr'
        (updateTaskData ttl t1 (addTaskWrite ttl t0 s0 id) id .running .nothing) id = some d' →
      d'.stageRunning := by
    refine readable_step ttl t1 _ id .running .nothing hbase (fun d hd => hd) ?_
    intro t d hd
    rw [applyUpdate_running]
    exact ⟨rfl, hd.2.1, hd.2.2.1, hd.2.2.2⟩
  cases o with
  | succeeded r =>
    simp only [lifecycleRun, executeAsyncSucceeds, updateTaskStatus, storeTaskResult] at h
    have h3 : ∀ tr' d',
        getTaskResult tr'
          (updateTaskData ttl t2
            (updateTaskData ttl t1 (addTaskWrite ttl t0 s0 id) id .running .nothing)
            id .completed (.resultField r)) id = some d' →
        d'.stageRunning ∨ d'.stageCompleted := by
      refine readable_step ttl t2 _ id .completed (.resultField r) hrun
        (fun d hd => Or.inl hd) ?_
      intro t d hd
      rw [applyUpdate_result]
      exact Or.inr ⟨rfl, rfl, hd.2.2.2⟩
    have h4 := readable_step (Q := fun d => d.stageRunning ∨ d.stageCompleted)
      ttl t3 _ id .completed .nothing h3 (fun d hd => hd)
      (fun t d hd => by
        rw [applyUpdate_completed_nothing]
        rcases hd with ⟨ha, hb, hc, he⟩ | ⟨ha, hb, hc⟩
        · exact Or.inr ⟨rfl, rfl, he⟩
        · exact Or.inr ⟨rfl, rfl, hc⟩)
    rcases h4 tr d h with hx | hx
    · exact invariantOk_of_stages d (Or.inl hx)
    · exact invariantOk_of_stages d (Or.inr (Or.inl hx))
  | raised e =>
    simp only [lifecycleRun, executeAsyncRaises, updateTaskStatus, storeTaskError] at h
    by_cases hmsg : containsSub e "Event loop is closed" = true
    · rw [if_pos hmsg] at h
      exact invariantOk_of_stages d (Or.inl (hrun tr d h))
    · rw [if_neg hmsg] at h
      have h3 : ∀ tr' d',
          getTaskResult tr'
            (updateTaskData ttl t2
              (updateTaskData ttl t1 (addTaskWrite ttl t0 s0 id) id .running .nothing)
              id .failed (.errorField e)) id = some d' →
          d'.stageRunning ∨ d'.stageFailed := by
        refine readable_step ttl t2 _ id .failed (.errorField e) hrun
          (fun d hd => Or.inl hd) ?_
        intro t d hd
        rw [applyUpdate_error]
        exact Or.inr ⟨rfl, rfl, hd.2.2.1⟩
      have h4 := readable_step (Q := fun d => d.stageRunning ∨ d.stageFailed)
        ttl t3 _ id .failed .nothing h3 (fun d hd => hd)
        (fun t d hd => by
          rw [applyUpdate_failed_nothing]
          rcases hd with ⟨ha, hb, hc, he⟩ | ⟨ha, hb, hc⟩
          · exact Or.inr ⟨rfl, rfl, hc⟩
          · exact Or.inr ⟨rfl, rfl, hc⟩)
      rcases h4 tr d h with hx | hx
      · exact invariantOk_of_stages d (Or.inl hx)
      · exact invariantOk_of_stages d (Or.inr (Or.inr (Or.inl hx)))
  | wasCancelled =>
    simp only [lifecycleRun, executeAsyncCancelledIn, updateTaskStatus] at h
    have h3 := readable_step (Q := fun d => d.stageRunning ∨ d.stageCancelled)
      ttl t2 _ id .cancelled .nothing hrun (fun d hd => Or.inl hd)
      (fun t d hd => by
        rw [applyUpdate_cancelled_nothing]
        exact Or.inr ⟨rfl, rfl, hd.2.2.1, hd.2.2.2⟩)
    rcases h3 tr d h with hx | hx
    · exact invariantOk_of_stages d (Or.inl hx)
    · exact invariantOk_of_stages d (Or.inr (Or.inr (Or.inr hx)))

theorem c2_witness :
    TaskData.invariantOk ⟨.completed, 0, 0, some 0, some 7, none⟩ :=
  c2_lifecycle_invariant 9 0 0 0 0 [] "t" (.succeeded 7) 0
    ⟨.completed, 0, 0, some 0, some 7, none⟩ (by decide)

/-- C3: the claim states that cancel_task on any record in pending or running
    returns true and writes a CANCELLED record. Counterexample: when the
    _tasks mapping holds no live handle for the id (pruned by the done
    callback, or lost across a restart), cancel_task falls through, returns
    false and leaves the RUNNING record untouched. -/
theorem c3_counterexample :
    (cancelTask 9 0 ⟨[("t", ⟨⟨.running, 0, 0, none, none, none⟩, 9⟩)], []⟩ "t").1 = false
      ∧ getTaskResult 0
          (cancelTask 9 0 ⟨[("t", ⟨⟨.running, 0, 0, none, none, none⟩, 9⟩)], []⟩ "t").2.store "t"
        = some ⟨.running, 0, 0, none, none, none⟩ := by
  decide

/-- C3 (amended): when the record is pending or running AND a live handle is
    found in the _tasks mapping, cancel_task cancels the handle, writes a
    terminal CANCELLED record and returns true, and any later cancel_task on
    the same id returns false; without a live handle it returns false and
    changes nothing. -/
theorem c3_cancel_with_handle (ttl now : Nat) (httl : 0 < ttl) (ps : ProcState) (id : String)
    (d : TaskData) (hget : redisGet now ps.store id = some d)
    (hst : d.status = .pending ∨ d.status = .running) (hh : id ∈ ps.handles) :
    (cancelTask ttl now ps id).1 = true
      ∧ (getTaskResult now (cancelTask ttl now ps id).2.store id).map TaskData.status
          = some .cancelled
      ∧ ∀ t', (cancelTask ttl t' (cancelTask ttl now ps id).2 id).1 = false := by
  have hkey : cancelTask ttl now ps id
      = (true, ⟨updateTaskStatus ttl now ps.store id .cancelled, ps.handles⟩) := by
    unfold cancelTask
    rw [hget]
    simp [hst, hh]
  have hlt : now < now + ttl := Nat.lt_add_of_pos_right httl
  refine ⟨by rw [hkey], ?_, ?_⟩
  · rw [hkey]
    simp only [updateTaskStatus, updateTaskData, hget, getTaskResult]
    rw [redisGet_set_self]
    simp [hlt, applyUpdate_cancelled_nothing]
  · intro t'
    rw [hkey]
    unfold cancelTask
    simp only [updateTaskStatus, updateTaskData, hget]
    rw [redisGet_set_self]
    by_cases ht' : t' < now + ttl
    · simp [ht', applyUpdate_cancelled_nothing]
    · simp [ht']

theorem c3_witness :
    (cancelTask 9 0 ⟨[("u", ⟨⟨.running, 0, 0, none, none, none⟩, 9⟩)], ["u"]⟩ "u").1 = true
      ∧ (getTaskResult 0
          (cancelTask 9 0 ⟨[("u", ⟨⟨.running, 0, 0, none, none, none⟩, 9⟩)], ["u"]⟩ "u").2.store
          "u").map TaskData.status = some .cancelled
      ∧ ∀ t', (cancelTask 9 t'
          (cancelTask 9 0 ⟨[("u", ⟨⟨.running, 0, 0, none, none, none⟩, 9⟩)], ["u"]⟩ "u").2
          "u").1 = false :=
  c3_cancel_with_handle 9 0 (by decide) ⟨[("u", ⟨⟨.running, 0, 0, none, none, none⟩, 9⟩)], ["u"]⟩
    "u" ⟨.running, 0, 0, none, none, none⟩ (by decide) (by decide) (by decide)

theorem scriptCheck_eq (now cutoff : Nat) (e : String × Entry)
    (hf : now < e.2.expiresAt)
    (ht : e.2.data.status.isTerminal = true → e.2.data.completed_at.isSome = true) :
    scriptCheck now cutoff e = some (specDeletes cutoff e.2.data) := by
  unfold scriptCheck luaCheck specDeletes
  rw [if_pos hf]
  by_cases hterm : e.2.data.status.isTerminal = true
  · cases hc : e.2.data.completed_at with
    | none =>
      have hx := ht hterm
      rw [hc] at hx
      simp at hx
    | some t => simp [hterm, hc]
  · rw [Bool.not_eq_true] at hterm
    simp [hterm]

/-- C4: cleanup_old_tasks deletes exactly the terminal records whose
    completed_at lies before now - max_age, returns how many it deleted, and
    keeps every non-terminal record whatever its age. The store is assumed to
    hold no expired keys (GET would skip them) and no terminal record with a
    null completed_at: every terminal write of _update_task_data fills
    completed_at, and such a record would make the Lua script compare
    cjson.null against a string and abort. -/
theorem c4_cleanup_exact (now maxAge : Nat) (s : Store)
    (hfresh : ∀ e ∈ s, now < e.2.expiresAt)
    (hterm : ∀ e ∈ s, e.2.data.status.isTerminal = true →
      e.2.data.completed_at.isSome = true) :
    (cleanupOldTasks now maxAge s).1
        = (s.filter (fun e => specDeletes (now - maxAge) e.2.data)).length
      ∧ (cleanupOldTasks now maxAge s).2
        = s.filter (fun e => !specDeletes (now - maxAge) e.2.data)
      ∧ ∀ e ∈ s, e.2.data.status.isTerminal = false → e ∈ (cleanupOldTasks now maxAge s).2 := by
  have hok : ∀ e ∈ s, scriptCheck now (now - maxAge) e = some (specDeletes (now - maxAge) e.2.data) :=
    fun e he => scriptCheck_eq now (now - maxAge) e (hfresh e he) (hterm e he)
  have hall : s.all (fun e => (scriptCheck now (now - maxAge) e).isSome) = true := by
    rw [List.all_eq_true]
    intro e he
    rw [hok e he]
    rfl
  have hdel : s.filter (fun e => scriptCheck now (now - maxAge) e == some true)
      = s.filter (fun e => specDeletes (now - maxAge) e.2.data) := by
    apply List.filter_congr
    intro e he
    rw [hok e he]
    cases specDeletes (now - maxAge) e.2.data <;> rfl
  have hkeep : s.filter (fun e => scriptCheck now (now - maxAge) e != some true)
      = s.filter (fun e => !specDeletes (now - maxAge) e.2.data) := by
    apply List.filter_congr
    intro e he
    rw [hok e he]
    cases specDeletes (now - maxAge) e.2.data <;> rfl
  have hres : cleanupOldTasks now maxAge s
      = ((s.filter (fun e => specDeletes (now - maxAge) e.2.data)).length,
          s.filter (fun e => !specDeletes (now - maxAge) e.2.data)) := by
    unfold cleanupOldTasks
    rw [if_pos hall, hdel, hkeep]
  refine ⟨by rw [hres], by rw [hres], ?_⟩
  intro e he hnt
  rw [hres]
  refine List.mem_filter.2 ⟨he, ?_⟩
  simp [specDeletes, hnt]

theorem c4_witness :
    (cleanupOldTasks 100 10 [("a", ⟨⟨.completed, 0, 1, some 1, some 0, none⟩, 200⟩),
        ("b", ⟨⟨.completed, 0, 95, some 95, some 0, none⟩, 200⟩),
        ("c", ⟨⟨.running, 0, 1, none, none, none⟩, 200⟩)]).1 = 1
      ∧ (cleanupOldTasks 100 10 [("a", ⟨⟨.completed, 0, 1, some 1, some 0, none⟩, 200⟩),
          ("b", ⟨⟨.completed, 0, 95, some 95, some 0, none⟩, 200⟩),
          ("c", ⟨⟨.running, 0, 1, none, none, none⟩, 200⟩)]).2
        = [("b", ⟨⟨.completed, 0, 95, some 95, some 0, none⟩, 200⟩),
            ("c", ⟨⟨.running, 0, 1, none, none, none⟩, 200⟩)] := by
  have h := c4_cleanup_exact 100 10
    [("a", ⟨⟨.completed, 0, 1, some 1, some 0, none⟩, 200⟩),
      ("b", ⟨⟨.completed, 0, 95, some 95, some 0, none⟩, 200⟩),
      ("c", ⟨⟨.running, 0, 1, none, none, none⟩, 200⟩)]
    (by decide) (by decide)
  refine ⟨?_, ?_⟩
  · rw [h.1]; decide
  · rw [h.2.1]; decide

/-- C8: the claim states that every raising callable ends with a FAILED record
    carrying the stringified error. Counterexample: an exception whose message
    contains the text Event loop is closed makes the except-branch return
    before storing anything, leaving the record RUNNING with a null error. -/
theorem c8_counterexample :
    (getTaskResult 0
        (executeAsyncRaises 9 0 0 0 (addTaskWrite 9 0 [] "t") "t" "Event loop is closed")
        "t").map TaskData.status = some .running
      ∧ (getTaskResult 0
          (executeAsyncRaises 9 0 0 0 (addTaskWrite 9 0 [] "t") "t" "Event loop is closed")
          "t").map TaskData.error = some none := by
  decide

/-- C8 (amended): for every submitted callable raising an exception whose
    stringified message does not contain Event loop is closed, the exception is
    absorbed by the execution routine (which returns normally) and the record
    ends FAILED with error equal to the message and result null; messages
    containing that text are swallowed with no record update. -/
theorem c8_failed_record (ttl t0 t1 t2 t3 : Nat) (s0 : Store) (id msg : String)
    (hmsg : containsSub msg "Event loop is closed" = false)
    (h1 : t1 < t0 + ttl) (h2 : t2 < t1 + ttl) (h3 : t3 < t2 + ttl) (httl : 0 < ttl) :
    getTaskResult t3 (executeAsyncRaises ttl t1 t2 t3 (addTaskWrite ttl t0 s0 id) id msg) id
      = some ⟨.failed, t0, t3, some t3, none, some msg⟩ := by
  have hlt3 : t3 < t3 + ttl := Nat.lt_add_of_pos_right httl
  simp only [executeAsyncRaises, updateTaskStatus, storeTaskError, addTaskWrite, hmsg,
    Bool.false_eq_true, if_false, updateTaskData, getTaskResult]
  rw [redisGet_set_self]
  simp only [h1, if_true, applyUpdate_running]
  rw [redisGet_set_self]
  simp only [h2, if_true, applyUpdate_error]
  rw [redisGet_set_self]
  simp only [h3, if_true, applyUpdate_failed_nothing]
  rw [redisGet_set_self]
  simp [hlt3, initialTaskData]

theorem c8_witness :
    getTaskResult 0 (executeAsyncRaises 9 0 0 0 (addTaskWrite 9 0 [] "t") "t" "boom") "t"
      = some ⟨.failed, 0, 0, some 0, none, some "boom"⟩ :=
  c8_failed_record 9 0 0 0 0 [] "t" "boom" (by decide) (by decide) (by decide) (by decide)
    (by decide)

/-- C10: the initial write of add_task and every write of _update_task_data
    SET the record with EX result_ttl, so the stored expiry is always the write
    instant plus result_ttl, and a GET at or after that instant returns null,
    for non-terminal records just as for terminal ones, with no involvement of
    cleanup_old_tasks. -/
theorem c10_ttl_expiry (ttl t0 t : Nat) (s : Store) (id : String) (st : TaskStatus)
    (add : Additional) (h : t0 + ttl ≤ t) :
    storeLookup (addTaskWrite ttl t0 s id) id = some ⟨initialTaskData t0, t0 + ttl⟩
      ∧ (∀ d, redisGet t0 s id = some d →
          storeLookup (updateTaskData ttl t0 s id st add) id
            = some ⟨applyUpdate t0 st add d, t0 + ttl⟩)
      ∧ getTaskResult t (addTaskWrite ttl t0 s id) id = none
      ∧ getTaskResult t (updateTaskData ttl t0 s id st add) id = none := by
  refine ⟨storeLookup_set_self ttl t0 s id (initialTaskData t0), ?_, ?_, ?_⟩
  · intro d hd
    unfold updateTaskData
    rw [hd]
    exact storeLookup_set_self ttl t0 s id (applyUpdate t0 st add d)
  · simp only [getTaskResult, addTaskWrite]
    rw [redisGet_set_self]
    simp [Nat.not_lt.2 h]
  · unfold updateTaskData
    cases hg : redisGet t0 s id with
    | some d =>
      simp only [getTaskResult]
      rw [redisGet_set_self]
      simp [Nat.not_lt.2 h]
    | none =>
      simp only [getTaskResult, redisGet] at hg ⊢
      cases hl : storeLookup s id with
      | none => simp [hl]
      | some e =>
        rw [hl] at hg
        by_cases hx : t0 < e.expiresAt
        · simp [hx] at hg
        · have hnt : ¬ t < e.expiresAt := by omega
          simp [hnt]

theorem c10_witness :
    storeLookup (addTaskWrite 5 0 [] "t") "t" = some ⟨initialTaskData 0, 5⟩
      ∧ getTaskResult 5 (addTaskWrite 5 0 [] "t") "t" = none :=
  ⟨(c10_ttl_expiry 5 0 5 [] "t" .running .nothing (by decide)).1,
    (c10_ttl_expiry 5 0 5 [] "t" .running .nothing (by decide)).2.2.1⟩

end TaskEngine

namespace ConnMgr

/-- C6: the first half of the claim holds: once failure_count has reached the
    threshold, every execute call fails immediately without contacting the
    store. The second half does not: execute never consults the stored
    _circuit_breaker_timeout (its constructor docstring promises a wait before
    retrying after the circuit breaks), no reset operation exists, and the
    open-circuit branch leaves failure_count unchanged while preventing the
    success that alone resets it, so the call returns the state it was given:
    the breaker stays open forever however much time passes and however
    healthy the store is. -/
theorem c6_breaker_never_closes (threshold : Nat) (st : ConnState) (ok : Nat → Bool)
    (hopen : threshold ≤ st.failure_count) :
    execute threshold st ok = (st, .circuitOpenErr) := by
  have ha : ∀ b, executeAttempt threshold st b = (st, .circuitOpenErr) := by
    intro b
    unfold executeAttempt
    rw [if_pos hopen]
  simp [execute, executeRetries, ha]

theorem c6_witness : execute 1 ⟨1⟩ (fun _ => true) = (⟨1⟩, .circuitOpenErr) :=
  c6_breaker_never_closes 1 ⟨1⟩ (fun _ => true) (by decide)

/-- C7: the claim states that failure_count is incremented only once per
    exhausted call. Counterexample: the increment sits inside the retried body,
    so a single call against a persistently failing store (threshold 5, count
    initially 0) ends with failure_count 3, one per attempt, not 1. -/
theorem c7_counterexample :
    (execute 5 ⟨0⟩ (fun _ => false)).1.failure_count = 3
      ∧ ¬ (execute 5 ⟨0⟩ (fun _ => false)).1.failure_count = 1 := by
  decide

/-- C7 (amended): with the breaker closed, a successful first attempt resets
    failure_count to zero; against a persistently failing store the call makes
    the decorator's hard-coded 3 attempts (the configured retry_max_attempts is
    not consulted), each failed attempt increments failure_count by one, and
    the error is raised on exhaustion, so one exhausted call adds 3 to
    failure_count while the breaker stays closed throughout, not 1. -/
theorem c7_retry_accounting (threshold fc : Nat) (ok : Nat → Bool) :
    (fc < threshold → ok 0 = true → execute threshold ⟨fc⟩ ok = (⟨0⟩, .success))
      ∧ (fc + 3 ≤ threshold → (∀ i, ok i = false) →
          execute threshold ⟨fc⟩ ok = (⟨fc + 3⟩, .commandErr)) := by
  constructor
  · intro hlt hok
    have hn : ¬ threshold ≤ fc := Nat.not_le.2 hlt
    simp [execute, executeRetries, executeAttempt, hn, hok]
  · intro hle hfail
    have n0 : ¬ threshold ≤ fc := by omega
    have n1 : ¬ threshold ≤ fc + 1 := by omega
    have n2 : ¬ threshold ≤ fc + 1 + 1 := by omega
    simp [execute, executeRetries, executeAttempt, n0, n1, n2, hfail, ConnState.mk.injEq]

theorem c7_witness :
    execute 9 ⟨0⟩ (fun _ => true) = (⟨0⟩, .success)
      ∧ execute 9 ⟨2⟩ (fun _ => false) = (⟨5⟩, .commandErr) :=
  ⟨(c7_retry_accounting 9 0 (fun _ => true)).1 (by decide) rfl,
    (c7_retry_accounting 9 2 (fun _ => false)).2 (by decide) (fun i => rfl)⟩

end ConnMgr

namespace Sched

theorem numExecuting_eq_countP (s : SchedState) :
    numExecuting s = s.countP (fun t => decide (t.phase = Phase.executing)) := by
  simp [numExecuting, List.countP_eq_length_filter]

/-- C5: the claim states that at most max_workers persisted records read
    status running at any instant. Counterexample: add_task writes RUNNING at
    submission time, before the body waits on the semaphore, so two plain
    submissions under max_workers = 1 already leave two RUNNING records. -/
theorem c5_counterexample :
    Reachable 1 [⟨"b", .running, .queued⟩, ⟨"a", .running, .queued⟩]
      ∧ numRunningStatus [⟨"b", .running, .queued⟩, ⟨"a", .running, .queued⟩] = 2 := by
  constructor
  · refine Reachable.step (Reachable.step Reachable.init (Step.submit [] "a" ?_))
      (Step.submit [⟨"a", .running, .queued⟩] "b" ?_)
    · intro t ht
      exact absurd ht (List.not_mem_nil t)
    · intro t ht
      rw [List.mem_singleton] at ht
      subst ht
      decide
  · decide

/-- C5 (amended): the semaphore does bound the number of simultaneously
    executing task bodies by max_workers in every reachable interleaving;
    the persisted status, however, is written as RUNNING already at
    submission, so more than max_workers records can read running at once
    (see the counterexample). -/
theorem c5_semaphore_bound (maxW : Nat) (s : SchedState) (h : Reachable maxW s) :
    numExecuting s ≤ maxW := by
  induction h with
  | init => simp [numExecuting]
  | step hr hs ih =>
    cases hs with
    | submit s id hfresh =>
      simp only [numExecuting_eq_countP, List.countP_cons] at *
      simp at *
      omega
    | acquire pre post t hq hcap =>
      simp only [numExecuting_eq_countP, List.countP_append, List.countP_cons] at *
      simp [hq] at *
      omega
    | finish pre post t final he hterm =>
      simp only [numExecuting_eq_countP, List.countP_append, List.countP_cons] at *
      simp [he] at *
      omega

theorem c5_witness : numExecuting [⟨"a", .running, .queued⟩] ≤ 1 :=
  c5_semaphore_bound 1 [⟨"a", .running, .queued⟩]
    (Reachable.step Reachable.init
      (Step.submit [] "a" (fun t ht => absurd ht (List.not_mem_nil t))))

end Sched

namespace LRUCache

theorem mem_lrem (l : List String) (k a : String) : a ∈ lrem l k ↔ a ∈ l ∧ a ≠ k := by
  simp [lrem, List.mem_filter]

theorem lrem_nodup (l : List String) (k : String) (h : l.Nodup) : (lrem l k).Nodup :=
  h.filter _

theorem not_mem_lrem_self (l : List String) (k : String) : k ∉ lrem l k := by
  rw [mem_lrem]
  rintro ⟨-, h⟩
  exact h rfl

theorem lrem_eq_of_not_mem : ∀ (l : List String) (k : String), k ∉ l → lrem l k = l
  | [], _, _ => rfl
  | a :: t, k, h => by
    have h1 : ¬ a = k := fun e => h (by rw [e]; exact List.mem_cons_self k t)
    have h2 : k ∉ t := fun m => h (List.mem_cons_of_mem a m)
    have ih := lrem_eq_of_not_mem t k h2
    simp only [lrem] at ih ⊢
    rw [List.filter_cons, if_pos (by simpa using h1), ih]

theorem lrem_length_mem : ∀ (l : List String) (k : String), l.Nodup → k ∈ l →
    (lrem l k).length + 1 = l.length
  | [], k, _, hm => absurd hm (List.not_mem_nil k)
  | a :: t, k, hnd, hm => by
    rcases List.nodup_cons.1 hnd with ⟨hat, hnt⟩
    by_cases h : a = k
    · subst h
      have : lrem (a :: t) a = t := by
        simp only [lrem, List.filter_cons]
        rw [if_neg (by simp)]
        exact lrem_eq_of_not_mem t a hat
      rw [this]
      simp [List.length_cons]
    · have hmt : k ∈ t := by
        rcases List.mem_cons.1 hm with he | hmt
        · exact absurd he.symm h
        · exact hmt
      have ih := lrem_length_mem t k hnt hmt
      have : lrem (a :: t) k = a :: lrem t k := by
        simp only [lrem, List.filter_cons]
        rw [if_pos (by simpa using h)]
      rw [this]
      simp only [List.length_cons]
      omega

theorem lrem_append (l1 l2 : List String) (k : String) :
    lrem (l1 ++ l2) k = lrem l1 k ++ lrem l2 k := by
  simp [lrem, List.filter_append]

theorem hget_eq_none_iff : ∀ (l : List (String × Nat)) (k : String),
    hget l k = none ↔ k ∉ l.map Prod.fst
  | [], k => by simp [hget]
  | (k', v') :: t, k => by
    by_cases h : k' = k
    · subst h
      simp [hget]
    · have ih := hget_eq_none_iff t k
      simp only [hget, List.map_cons, List.mem_cons]
      rw [if_neg h]
      rw [ih]
      constructor
      · rintro hnt (he | hmt)
        · exact h he.symm
        · exact hnt hmt
      · intro hx hmt
        exact hx (Or.inr hmt)

theorem hset_keys_of_mem : ∀ (l : List (String × Nat)) (k : String) (v : Nat),
    k ∈ l.map Prod.fst → (hset l k v).map Prod.fst = l.map Prod.fst
  | [], k, v, hm => absurd hm (by simp)
  | (k', v') :: t, k, v, hm => by
    by_cases h : k' = k
    · subst h
      simp [hset]
    · have hm' : k = k' ∨ k ∈ t.map Prod.fst := by
        rw [List.map_cons] at hm
        exact List.mem_cons.1 hm
      have hmt : k ∈ t.map Prod.fst := by
        rcases hm' with he | hmt
        · exact absurd he.symm h
        · exact hmt
      simp only [hset]
      rw [if_neg h]
      simp only [List.map_cons]
      rw [hset_keys_of_mem t k v hmt]

theorem hset_fresh : ∀ (l : List (String × Nat)) (k : String) (v : Nat),
    k ∉ l.map Prod.fst → hset l k v = l ++ [(k, v)]
  | [], _, _, _ => rfl
  | (k', v') :: t, k, v, h => by
    have h1 : ¬ k' = k := by
      intro e
      exact h (by simp [e])
    have h2 : k ∉ t.map Prod.fst := fun m => h (by simp [m])
    simp only [hset]
    rw [if_neg h1, hset_fresh t k v h2]
    rfl

theorem hdel_keys : ∀ (l : List (String × Nat)) (k : String),
    (hdel l k).map Prod.fst = lrem (l.map Prod.fst) k
  | [], _ => rfl
  | (k', v') :: t, k => by
    by_cases h : k' = k
    · subst h
      simp only [hdel, lrem, List.filter_cons, List.map_cons]
      rw [if_neg (by simp), if_neg (by simp)]
      exact hdel_keys t k'
    · simp only [hdel, lrem, List.filter_cons, List.map_cons]
      rw [if_pos (by simpa using h), if_pos (by simpa using h)]
      simp only [List.map_cons]
      have := hdel_keys t k
      simp only [hdel, lrem] at this
      rw [this]

theorem put_eq_no_evict (cap : Nat) (st : CacheState) (k : String) (v : Nat)
    (hev : ¬ cap < (k :: lrem st.order k).length) :
    put cap st k v = ⟨hset st.entries k v, k :: lrem st.order k⟩ := by
  unfold put
  rw [if_neg hev]

theorem put_eq_evict (cap : Nat) (st : CacheState) (k : String) (v : Nat)
    (hev : cap < (k :: lrem st.order k).length) (lru : String)
    (hlast : (k :: lrem st.order k).getLast? = some lru) :
    put cap st k v = ⟨hdel (hset st.entries k v) lru, (k :: lrem st.order k).dropLast⟩ := by
  unfold put
  rw [if_pos hev, hlast]

theorem mem_dropLast_of_nodup (l : List String) (hl : l ≠ []) (h : l.Nodup) (a : String) :
    a ∈ l.dropLast ↔ a ∈ l ∧ a ≠ l.getLast hl := by
  have hdecomp : l.dropLast ++ [l.getLast hl] = l := List.dropLast_append_getLast hl
  have hnd : (l.dropLast ++ [l.getLast hl]).Nodup := by rw [hdecomp]; exact h
  rcases List.nodup_append.1 hnd with ⟨h1, h2, hdisj⟩
  constructor
  · intro hm
    refine ⟨by rw [← hdecomp]; exact List.mem_append_left _ hm, ?_⟩
    intro he
    exact hdisj hm (by rw [he]; simp)
  · rintro ⟨hm, hne⟩
    rw [← hdecomp] at hm
    rcases List.mem_append.1 hm with hm1 | hm2
    · exact hm1
    · exact absurd (List.mem_singleton.1 hm2) hne

theorem put_preserves (cap : Nat) (st : CacheState) (k : String) (v : Nat)
    (h : WF st) (hlen : st.order.length ≤ cap) :
    WF (put cap st k v) ∧ (put cap st k v).order.length ≤ cap := by
  obtain ⟨hn1, hn2, hmem, hcnt⟩ := h
  by_cases hk : k ∈ st.order
  · -- the key is already cached: LREM drops its old slot, so no eviction fires
    have hkk : k ∈ st.entries.map Prod.fst := (hmem k).2 hk
    have hlrem := lrem_length_mem st.order k hn2 hk
    have hnoev : ¬ cap < (k :: lrem st.order k).length := by
      simp only [List.length_cons]
      omega
    have ekeys := hset_keys_of_mem st.entries k v hkk
    have elen : (hset st.entries k v).length = st.entries.length := by
      have h1 := congrArg List.length ekeys
      simpa using h1
    rw [put_eq_no_evict cap st k v hnoev]
    refine ⟨⟨?_, ?_, ?_, ?_⟩, ?_⟩
    · show ((hset st.entries k v).map Prod.fst).Nodup
      rw [ekeys]
      exact hn1
    · exact List.nodup_cons.2 ⟨not_mem_lrem_self _ _, lrem_nodup _ _ hn2⟩
    · intro a
      show a ∈ (hset st.entries k v).map Prod.fst ↔ a ∈ k :: lrem st.order k
      rw [ekeys, List.mem_cons, mem_lrem]
      constructor
      · intro ha
        by_cases hak : a = k
        · exact Or.inl hak
        · exact Or.inr ⟨(hmem a).1 ha, hak⟩
      · rintro (he | ⟨ha, -⟩)
        · exact he ▸ hkk
        · exact (hmem a).2 ha
    · show (hset st.entries k v).length = (k :: lrem st.order k).length
      rw [elen, hcnt]
      simp only [List.length_cons]
      omega
    · show (k :: lrem st.order k).length ≤ cap
      simp only [List.length_cons]
      omega
  · -- fresh key: LPUSH grows the order list by one
    have hkk : k ∉ st.entries.map Prod.fst := fun hm => hk ((hmem k).1 hm)
    have hlr : lrem st.order k = st.order := lrem_eq_of_not_mem st.order k hk
    have hsf : hset st.entries k v = st.entries ++ [(k, v)] := hset_fresh st.entries k v hkk
    by_cases hev : cap < (k :: lrem st.order k).length
    · -- past capacity: RPOP the least recently used field and HDEL it
      have hev' := hev
      rw [hlr] at hev'
      simp only [List.length_cons] at hev'
      have hocap : st.order.length = cap := by omega
      by_cases ho : st.order = []
      · -- capacity zero: the freshly inserted key is itself evicted again
        have hent : st.entries = [] := by
          have h0 : st.entries.length = 0 := by rw [hcnt, ho]; rfl
          exact List.length_eq_zero.1 h0
        have hlast : (k :: lrem st.order k).getLast? = some k := by
          rw [hlr, ho]
          rfl
        have hput := put_eq_evict cap st k v hev k hlast
        rw [hlr, ho, hsf, hent] at hput
        have hdel0 : hdel ([] ++ [(k, v)]) k = [] := by simp [hdel]
        rw [hdel0] at hput
        rw [hput]
        exact ⟨⟨List.nodup_nil, List.nodup_nil, by simp, rfl⟩, by simp⟩
      · -- nonempty order: the evicted field is the last of the order list
        have hdecomp := List.dropLast_append_getLast ho
        have hgo : st.order.getLast ho ∈ st.order := List.getLast_mem ho
        have hgk : ¬ st.order.getLast ho = k := fun e => hk (e ▸ hgo)
        have hgkeys : st.order.getLast ho ∈ st.entries.map Prod.fst := (hmem _).2 hgo
        have hshape : k :: st.order = (k :: st.order.dropLast) ++ [st.order.getLast ho] := by
          conv_lhs => rw [← hdecomp]
          rfl
        have hlast : (k :: lrem st.order k).getLast? = some (st.order.getLast ho) := by
          rw [hlr, hshape, List.getLast?_concat]
        have hdrop : (k :: lrem st.order k).dropLast = k :: st.order.dropLast := by
          rw [hlr, hshape, List.dropLast_concat]
        have hput := put_eq_evict cap st k v hev _ hlast
        rw [hdrop, hsf] at hput
        have hkeys2 : (hdel (st.entries ++ [(k, v)]) (st.order.getLast ho)).map Prod.fst
            = lrem (st.entries.map Prod.fst) (st.order.getLast ho) ++ [k] := by
          rw [hdel_keys, List.map_append, lrem_append]
          congr 1
          exact lrem_eq_of_not_mem [k] _ (by simpa using hgk)
        have hgdel := lrem_length_mem (st.entries.map Prod.fst) _ hn1 hgkeys
        have hmemdrop := fun a => mem_dropLast_of_nodup st.order ho hn2 a
        rw [hput]
        refine ⟨⟨?_, ?_, ?_, ?_⟩, ?_⟩
        · show ((hdel (st.entries ++ [(k, v)]) (st.order.getLast ho)).map Prod.fst).Nodup
          rw [hkeys2]
          refine List.nodup_append.2 ⟨lrem_nodup _ _ hn1, List.nodup_singleton k, ?_⟩
          intro a ha hak
          rw [List.mem_singleton] at hak
          subst hak
          exact hkk ((mem_lrem _ _ _).1 ha).1
        · refine List.nodup_cons.2 ⟨?_, hn2.sublist (List.dropLast_sublist st.order)⟩
          intro hmdk
          exact hk ((hmemdrop k).1 hmdk).1
        · intro a
          show a ∈ (hdel (st.entries ++ [(k, v)]) (st.order.getLast ho)).map Prod.fst
            ↔ a ∈ k :: st.order.dropLast
          rw [hkeys2, List.mem_append, mem_lrem, List.mem_singleton, List.mem_cons, hmemdrop a]
          constructor
          · rintro (⟨ha, hag⟩ | he)
            · exact Or.inr ⟨(hmem a).1 ha, hag⟩
            · exact Or.inl he
          · rintro (he | ⟨ha, hag⟩)
            · exact Or.inr he
            · exact Or.inl ⟨(hmem a).2 ha, hag⟩
        · show (hdel (st.entries ++ [(k, v)]) (st.order.getLast ho)).length
            = (k :: st.order.dropLast).length
          have e1 : (hdel (st.entries ++ [(k, v)]) (st.order.getLast ho)).length
              = ((hdel (st.entries ++ [(k, v)]) (st.order.getLast ho)).map Prod.fst).length :=
            (List.length_map _ _).symm
          rw [e1, hkeys2, List.length_append, List.length_singleton, List.length_cons,
            List.length_dropLast]
          have e2 : (st.entries.map Prod.fst).length = st.entries.length := List.length_map _ _
          omega
        · show (k :: st.order.dropLast).length ≤ cap
          rw [List.length_cons, List.length_dropLast]
          have hpos : 0 < st.order.length := List.length_pos.2 ho
          omega
    · -- within capacity: plain append of the fresh key
      rw [put_eq_no_evict cap st k v hev, hlr, hsf]
      rw [hlr] at hev
      simp only [List.length_cons] at hev
      refine ⟨⟨?_, ?_, ?_, ?_⟩, ?_⟩
      · show ((st.entries ++ [(k, v)]).map Prod.fst).Nodup
        rw [List.map_append]
        refine List.nodup_append.2 ⟨hn1, by simp, ?_⟩
        intro a ha hak
        simp at hak
        subst hak
        exact hkk ha
      · exact List.nodup_cons.2 ⟨hk, hn2⟩
      · intro a
        show a ∈ (st.entries ++ [(k, v)]).map Prod.fst ↔ a ∈ k :: st.order
        rw [List.map_append, List.mem_append, List.mem_cons]
        simp only [List.map_cons, List.map_nil, List.mem_singleton]
        rw [hmem a]
        tauto
      · show (st.entries ++ [(k, v)]).length = (k :: st.order).length
        rw [List.length_append, List.length_cons]
        simp [hcnt]
      · show (k :: st.order).length ≤ cap
        rw [List.length_cons]
        omega

theorem get_preserves (st : CacheState) (k : String) (h : WF st) :
    WF (get st k).2 ∧ (get st k).2.order.length = st.order.length := by
  obtain ⟨hn1, hn2, hmem, hcnt⟩ := h
  cases hv : hget st.entries k with
  | none =>
    have hsame : (get st k).2 = st := by simp [get, hv]
    rw [hsame]
    exact ⟨⟨hn1, hn2, hmem, hcnt⟩, rfl⟩
  | some v =>
    have hkk : k ∈ st.entries.map Prod.fst := by
      by_contra hc
      rw [← hget_eq_none_iff] at hc
      rw [hv] at hc
      cases hc
    have hko : k ∈ st.order := (hmem k).1 hkk
    have hlrem := lrem_length_mem st.order k hn2 hko
    have hres : (get st k).2 = ⟨st.entries, k :: lrem st.order k⟩ := by
      simp [get, hv]
    rw [hres]
    refine ⟨⟨hn1, ?_, ?_, ?_⟩, ?_⟩
    · exact List.nodup_cons.2 ⟨not_mem_lrem_self _ _, lrem_nodup _ _ hn2⟩
    · intro a
      show a ∈ st.entries.map Prod.fst ↔ a ∈ k :: lrem st.order k
      rw [List.mem_cons, mem_lrem]
      constructor
      · intro ha
        by_cases hak : a = k
        · exact Or.inl hak
        · exact Or.inr ⟨(hmem a).1 ha, hak⟩
      · rintro (he | ⟨ha, -⟩)
        · exact he ▸ hkk
        · exact (hmem a).2 ha
    · show st.entries.length = (k :: lrem st.order k).length
      rw [hcnt]
      simp only [List.length_cons]
      omega
    · show (k :: lrem st.order k).length = st.order.length
      simp only [List.length_cons]
      omega

theorem applyOps_preserves (cap : Nat) : ∀ (ops : List Op) (st : CacheState),
    WF st → st.order.length ≤ cap →
    WF (applyOps cap st ops) ∧ (applyOps cap st ops).order.length ≤ cap
  | [], st, h, hl => ⟨h, hl⟩
  | op :: rest, st, h, hl => by
    cases op with
    | putOp k v =>
      have hp := put_preserves cap st k v h hl
      have hrec := applyOps_preserves cap rest (put cap st k v) hp.1 hp.2
      simpa [applyOps, applyOp] using hrec
    | getOp k =>
      have hg := get_preserves st k h
      have hrec := applyOps_preserves cap rest (get st k).2 hg.1 (by rw [hg.2]; exact hl)
      simpa [applyOps, applyOp] using hrec

theorem put_fresh_no_evict (cap : Nat) (st : CacheState) (k : String) (v : Nat)
    (hk : k ∉ st.order) (hkk : k ∉ st.entries.map Prod.fst)
    (hlen : st.order.length + 1 ≤ cap) :
    put cap st k v = ⟨st.entries ++ [(k, v)], k :: st.order⟩ := by
  have hlr := lrem_eq_of_not_mem st.order k hk
  have hnoev : ¬ cap < (k :: lrem st.order k).length := by
    rw [hlr]
    simp only [List.length_cons]
    omega
  rw [put_eq_no_evict cap st k v hnoev, hlr, hset_fresh st.entries k v hkk]

theorem putKeys_fresh (cap : Nat) : ∀ (ks : List String) (st : CacheState),
    ks.Nodup → (∀ a ∈ ks, a ∉ st.order ∧ a ∉ st.entries.map Prod.fst) →
    st.order.length + ks.length ≤ cap →
    (putKeys cap st ks).entries.map Prod.fst = st.entries.map Prod.fst ++ ks
      ∧ (putKeys cap st ks).order = ks.reverse ++ st.order
  | [], st, _, _, _ => by simp [putKeys]
  | k :: rest, st, hnd, hfresh, hlen => by
    have hk := hfresh k (List.mem_cons_self k rest)
    have hstep := put_fresh_no_evict cap st k 0 hk.1 hk.2 (by
      simp only [List.length_cons] at hlen
      omega)
    have hndr := (List.nodup_cons.1 hnd).2
    have hkr : k ∉ rest := (List.nodup_cons.1 hnd).1
    have hrec := putKeys_fresh cap rest ⟨st.entries ++ [(k, 0)], k :: st.order⟩ hndr
      (by
        intro a ha
        have hfa := hfresh a (List.mem_cons_of_mem k ha)
        constructor
        · show a ∉ k :: st.order
          intro hm
          rcases List.mem_cons.1 hm with he | hm2
          · exact hkr (he ▸ ha)
          · exact hfa.1 hm2
        · show a ∉ (st.entries ++ [(k, 0)]).map Prod.fst
          rw [List.map_append]
          intro hm
          rcases List.mem_append.1 hm with hm1 | hm2
          · exact hfa.2 hm1
          · simp only [List.map_cons, List.map_nil, List.mem_singleton] at hm2
            exact hkr (hm2 ▸ ha)
      )
      (by
        show (k :: st.order).length + rest.length ≤ cap
        simp only [List.length_cons]
        simp only [List.length_cons] at hlen
        omega)
    have hfold : putKeys cap st (k :: rest) = putKeys cap (put cap st k 0) rest := rfl
    rw [hfold, hstep]
    refine ⟨?_, ?_⟩
    · rw [hrec.1, List.map_append]
      simp [List.append_assoc]
    · rw [hrec.2, List.reverse_cons]
      simp [List.append_assoc]

theorem putKeys_empty (cap : Nat) (ks : List String) (hnd : ks.Nodup)
    (hlen : ks.length ≤ cap) :
    (putKeys cap emptyCache ks).entries.map Prod.fst = ks
      ∧ (putKeys cap emptyCache ks).order = ks.reverse := by
  have h := putKeys_fresh cap ks emptyCache hnd
    (fun a ha => ⟨List.not_mem_nil a, List.not_mem_nil a⟩) (by simpa [emptyCache] using hlen)
  simpa [emptyCache] using h

/-- C9: for an LRU cache of capacity c: (a) starting from an empty cache, no
    sequence of put and get operations ever drives the size above c; (b)
    putting c + 1 distinct keys into an empty cache evicts exactly the least
    recently used key, the first one inserted, within that same put call; (c)
    a get on the least recently used key promotes it, so a subsequent put of a
    fresh key evicts the second-oldest key instead and the read key
    survives. -/
theorem c9_lru_cache (cap : Nat) :
    (∀ ops : List Op, size (applyOps cap emptyCache ops) ≤ cap)
      ∧ (∀ (k0 : String) (rest : List String) (knew : String) (v : Nat),
          (k0 :: rest).Nodup → knew ∉ k0 :: rest → cap = rest.length + 1 →
          (put cap (putKeys cap emptyCache (k0 :: rest)) knew v).entries.map Prod.fst
              = rest ++ [knew]
            ∧ (put cap (putKeys cap emptyCache (k0 :: rest)) knew v).order
              = knew :: rest.reverse)
      ∧ (∀ (k0 k1 : String) (rest : List String) (knew : String) (v : Nat),
          (k0 :: k1 :: rest).Nodup → knew ∉ k0 :: k1 :: rest → cap = rest.length + 2 →
          (put cap (get (putKeys cap emptyCache (k0 :: k1 :: rest)) k0).2 knew v).entries.map
              Prod.fst = k0 :: (rest ++ [knew])
            ∧ (put cap (get (putKeys cap emptyCache (k0 :: k1 :: rest)) k0).2 knew v).order
              = knew :: k0 :: rest.reverse) := by
  refine ⟨?_, ?_, ?_⟩
  · intro ops
    have h := applyOps_preserves cap ops emptyCache
      ⟨by simp [emptyCache], by simp [emptyCache], by simp [emptyCache], rfl⟩
      (by simp [emptyCache])
    show (applyOps cap emptyCache ops).entries.length ≤ cap
    rw [h.1.2.2.2]
    exact h.2
  · intro k0 rest knew v hnd hnew hcap
    have hkeys := putKeys_empty cap (k0 :: rest) hnd (by rw [hcap]; simp)
    have hknewo : knew ∉ (putKeys cap emptyCache (k0 :: rest)).order := by
      rw [hkeys.2, List.mem_reverse]
      exact hnew
    have hknewk : knew ∉ (putKeys cap emptyCache (k0 :: rest)).entries.map Prod.fst := by
      rw [hkeys.1]
      exact hnew
    have hlr := lrem_eq_of_not_mem _ knew hknewo
    have hsf := hset_fresh _ knew v hknewk
    have hshape : knew :: (putKeys cap emptyCache (k0 :: rest)).order
        = (knew :: rest.reverse) ++ [k0] := by
      rw [hkeys.2, List.reverse_cons]
      rfl
    have hev : cap < (knew :: lrem (putKeys cap emptyCache (k0 :: rest)).order knew).length := by
      rw [hlr, hkeys.2]
      simp only [List.length_cons, List.length_reverse]
      omega
    have hlast : (knew :: lrem (putKeys cap emptyCache (k0 :: rest)).order knew).getLast?
        = some k0 := by
      rw [hlr, hshape, List.getLast?_concat]
    have hdrop : (knew :: lrem (putKeys cap emptyCache (k0 :: rest)).order knew).dropLast
        = knew :: rest.reverse := by
      rw [hlr, hshape, List.dropLast_concat]
    have hput := put_eq_evict cap (putKeys cap emptyCache (k0 :: rest)) knew v hev k0 hlast
    rw [hdrop, hsf] at hput
    have hk0rest : k0 ∉ rest := (List.nodup_cons.1 hnd).1
    have hlremks : lrem (k0 :: rest) k0 = rest := by
      have h1 : lrem (k0 :: rest) k0 = lrem rest k0 := by
        simp only [lrem, List.filter_cons]
        rw [if_neg (by simp)]
      rw [h1]
      exact lrem_eq_of_not_mem rest k0 hk0rest
    have hkey2 : (hdel ((putKeys cap emptyCache (k0 :: rest)).entries ++ [(knew, v)])
        k0).map Prod.fst = rest ++ [knew] := by
      rw [hdel_keys, List.map_append]
      simp only [List.map_cons, List.map_nil]
      rw [lrem_append, hkeys.1, hlremks, lrem_eq_of_not_mem [knew] k0 (by
        simp only [List.mem_singleton]
        intro he
        subst he
        exact hnew (List.mem_cons_self k0 rest))]
    rw [hput]
    exact ⟨hkey2, rfl⟩
  · intro k0 k1 rest knew v hnd hnew hcap
    have hkeys := putKeys_empty cap (k0 :: k1 :: rest) hnd (by rw [hcap]; simp)
    have hnd1 : k0 ∉ k1 :: rest := (List.nodup_cons.1 hnd).1
    have hnd2 : (k1 :: rest).Nodup := (List.nodup_cons.1 hnd).2
    have hk1rest : k1 ∉ rest := (List.nodup_cons.1 hnd2).1
    have hk0 : k0 ∈ (putKeys cap emptyCache (k0 :: k1 :: rest)).entries.map Prod.fst := by
      rw [hkeys.1]
      exact List.mem_cons_self _ _
    obtain ⟨v0, hv0⟩ : ∃ v0, hget (putKeys cap emptyCache (k0 :: k1 :: rest)).entries k0
        = some v0 := by
      cases hv : hget (putKeys cap emptyCache (k0 :: k1 :: rest)).entries k0 with
      | none => exact absurd hk0 ((hget_eq_none_iff _ _).1 hv)
      | some v0 => exact ⟨v0, rfl⟩
    have hlivre : lrem (putKeys cap emptyCache (k0 :: k1 :: rest)).order k0
        = (k1 :: rest).reverse := by
      rw [hkeys.2, List.reverse_cons, lrem_append]
      rw [lrem_eq_of_not_mem _ k0 (by rw [List.mem_reverse]; exact hnd1)]
      have h0 : lrem [k0] k0 = [] := by simp [lrem]
      rw [h0, List.append_nil]
    have hS2 : (get (putKeys cap emptyCache (k0 :: k1 :: rest)) k0).2
        = ⟨(putKeys cap emptyCache (k0 :: k1 :: rest)).entries,
            k0 :: (k1 :: rest).reverse⟩ := by
      simp [get, hv0, hlivre]
    have hknewo : knew ∉ k0 :: (k1 :: rest).reverse := by
      intro hm
      rcases List.mem_cons.1 hm with he | hm2
      · exact hnew (by rw [he]; exact List.mem_cons_self _ _)
      · exact hnew (List.mem_cons_of_mem k0 (List.mem_reverse.1 hm2))
    have hknewk : knew ∉ (putKeys cap emptyCache (k0 :: k1 :: rest)).entries.map Prod.fst := by
      rw [hkeys.1]
      exact hnew
    set S2 : CacheState := ⟨(putKeys cap emptyCache (k0 :: k1 :: rest)).entries,
      k0 :: (k1 :: rest).reverse⟩ with hS2def
    have hlr : lrem S2.order knew = S2.order := lrem_eq_of_not_mem _ knew hknewo
    have hsf : hset S2.entries knew v = S2.entries ++ [(knew, v)] :=
      hset_fresh _ knew v hknewk
    have hshape : knew :: S2.order = (knew :: k0 :: rest.reverse) ++ [k1] := by
      show knew :: k0 :: (k1 :: rest).reverse = (knew :: k0 :: rest.reverse) ++ [k1]
      rw [List.reverse_cons]
      rfl
    have hev : cap < (knew :: lrem S2.order knew).length := by
      rw [hlr]
      show cap < (knew :: k0 :: (k1 :: rest).reverse).length
      simp only [List.length_cons, List.length_reverse]
      omega
    have hlast : (knew :: lrem S2.order knew).getLast? = some k1 := by
      rw [hlr, hshape, List.getLast?_concat]
    have hdrop : (knew :: lrem S2.order knew).dropLast = knew :: k0 :: rest.reverse := by
      rw [hlr, hshape, List.dropLast_concat]
    have hput := put_eq_evict cap S2 knew v hev k1 hlast
    rw [hdrop, hsf] at hput
    have hk0k1 : ¬ k0 = k1 := by
      intro he
      exact hnd1 (by rw [he]; exact List.mem_cons_self _ _)
    have hlremks : lrem (k0 :: k1 :: rest) k1 = k0 :: rest := by
      have h1 : lrem (k0 :: k1 :: rest) k1 = k0 :: lrem (k1 :: rest) k1 := by
        simp only [lrem, List.filter_cons]
        rw [if_pos (by simpa using hk0k1)]
      have h2 : lrem (k1 :: rest) k1 = lrem rest k1 := by
        simp only [lrem, List.filter_cons]
        rw [if_neg (by simp)]
      rw [h1, h2, lrem_eq_of_not_mem rest k1 hk1rest]
    have hkey2 : (hdel (S2.entries ++ [(knew, v)]) k1).map Prod.fst
        = k0 :: (rest ++ [knew]) := by
      rw [hdel_keys, List.map_append]
      simp only [List.map_cons, List.map_nil]
      have he1 : S2.entries.map Prod.fst = k0 :: k1 :: rest := hkeys.1
      rw [lrem_append, he1, hlremks, lrem_eq_of_not_mem [knew] k1 (by
        simp only [List.mem_singleton]
        intro he
        subst he
        exact hnew (List.mem_cons_of_mem k0 (List.mem_cons_self k1 rest)))]
      rfl
    rw [hS2] at *
    rw [hput]
    exact ⟨hkey2, rfl⟩

theorem c9_witness :
    size (applyOps 2 emptyCache [Op.putOp "a" 0, Op.putOp "b" 1, Op.putOp "c" 2]) ≤ 2
      ∧ (put 2 (putKeys 2 emptyCache ["a", "b"]) "c" 5).entries.map Prod.fst = ["b", "c"]
      ∧ (put 2 (get (putKeys 2 emptyCache ["a", "b"]) "a").2 "c" 5).order = ["c", "a"] := by
  refine ⟨(c9_lru_cache 2).1 _, ?_, ?_⟩
  · exact ((c9_lru_cache 2).2.1 "a" ["b"] "c" 5 (by decide) (by decide) rfl).1
  · exact ((c9_lru_cache 2).2.2 "a" "b" [] "c" 5 (by decide) (by decide) rfl).2

end LRUCache
